import Mathlib

/-!
Verification of the string-distance core of the `distances` crate
(`src/strings/mod.rs`): the Levenshtein (edit) distance computed by the
Wagner-Fischer single-row dynamic program, and the Hamming distance.

Rust strings are modelled as their decoded character sequences
(`List Char`), matching the code's use of `a.chars()`.  The `usize`
arithmetic in the DP row is modelled by `Nat`: every value stored in the
row is bounded by `max len_a len_b` (proved below), far from `usize`
overflow.
-/

namespace Distances

/-- One pass of the inner `for (j, cb) in b.chars().enumerate()` loop of
`levenshtein` (src/strings/mod.rs lines 79-95), rendered functionally.
The mutable row `cur` is split into the already-rewritten part (whose last
element, `cur[j]`, is passed as `left`) and the not-yet-rewritten suffix
`oldj :: oldj1 :: rest` (so `oldj` is the loop variable `pre`, the value
the previous iteration saved from `cur[j]` before overwriting it, and
`oldj1` is `tmp = cur[j+1]`).  The result is the list of values written to
`cur[1], cur[2], ...` in order; the code writes
`cur[j+1] = min(tmp + 1, min(cur[j] + 1, pre + usize::from(ca != cb)))`. -/
def levRow (ca : Char) : List Char → List Nat → Nat → List Nat
  | cb :: bs, oldj :: oldj1 :: rest, left =>
    let v := min (oldj1 + 1) (min (left + 1) (oldj + if ca = cb then 0 else 1))
    v :: levRow ca bs (oldj1 :: rest) v
  | _, _, _ => []

/-- The outer `for (i, ca) in a.chars().enumerate()` loop of `levenshtein`
(src/strings/mod.rs lines 78-96): for each character of `a` the row is
rewritten, with `cur[0] = i + 1` and the rest produced by `levRow`.
`i` is the 0-based index of the current character of `a`. -/
def levRows (b : List Char) : List Char → Nat → List Nat → List Nat
  | [], _, cur => cur
  | ca :: arest, i, cur => levRows b arest (i + 1) ((i + 1) :: levRow ca b cur (i + 1))

/-- `levenshtein` from src/strings/mod.rs lines 58-98, on decoded character
sequences, before the final conversion into the caller-chosen unsigned
width `U` (that conversion is `uintFromCount` below).  The four branches
are the source's: two zero-length special cases, the self-recursive
role swap when `len_a < len_b`, and the Wagner-Fischer DP whose row is
initialized to `(0..len_b + 1).collect()` and whose answer is the last
cell of the final row (`cur[len_b - 1]` after the shadowing
`let len_b = len_b + 1`). -/
def levenshtein (a b : List Char) : Nat :=
  if a.length = 0 then b.length
  else if b.length = 0 then a.length
  else if h : a.length < b.length then levenshtein b a
  else (levRows b a 0 (List.range (b.length + 1))).getD b.length 0
termination_by b.length
decreasing_by exact h

/-- `levenshtein` again, with an explicit recursion-depth budget in place
of the self-recursive role swap, used to state that the swap is taken at
most once: a budget of `2` never runs out (`none` models exhausting the
budget). -/
def levenshteinFuel : Nat → List Char → List Char → Option Nat
  | 0, _, _ => none
  | fuel + 1, a, b =>
    if a.length = 0 then some b.length
    else if b.length = 0 then some a.length
    else if a.length < b.length then levenshteinFuel fuel b a
    else some ((levRows b a 0 (List.range (b.length + 1))).getD b.length 0)

/-- `hamming` from src/strings/mod.rs lines 144-146:
`x.chars().zip(y.chars()).filter(|(a, b)| a != b).count()`, before the
conversion into the output width. -/
def hamming (x y : List Char) : Nat :=
  ((x.zip y).filter fun p => p.1 != p.2).length

/-- Modelled from the spec: the `UInt` conversion from `crate::number` is
not under src/ (only its use `U::from(...)` is).  Per the spec it turns a
non-negative count into a `w`-bit unsigned integer, "failing loudly on
overflow": it aborts fatally when the count exceeds the width's maximum
value `2 ^ w - 1` rather than truncating or wrapping.  `none` models the
fatal abort (panic). -/
def uintFromCount (w : Nat) (n : Nat) : Option Nat :=
  if n < 2 ^ w then some n else none

/-- `levenshtein` including the final conversion into the `w`-bit output
width, as `U::from(...)` is applied to every branch's result. -/
def levenshteinChecked (w : Nat) (a b : List Char) : Option Nat :=
  uintFromCount w (levenshtein a b)

/-- `hamming` including the final conversion into the `w`-bit output
width. -/
def hammingChecked (w : Nat) (x y : List Char) : Option Nat :=
  uintFromCount w (hamming x y)

/-! ### The specification side: edit scripts

The spec's contract for `levenshtein` is "the minimum number of
single-character insertions, deletions, or substitutions (each cost 1)
needed to transform `a` into `b`".  We formalize a single edit operation
and chains of `n` of them. -/

/-- A single edit operation: insertion, deletion, or substitution of one
character at an arbitrary position. -/
inductive EditStep : List Char → List Char → Prop
  | insert (u v : List Char) (c : Char) : EditStep (u ++ v) (u ++ c :: v)
  | delete (u v : List Char) (c : Char) : EditStep (u ++ c :: v) (u ++ v)
  | subst (u v : List Char) (c d : Char) : EditStep (u ++ c :: v) (u ++ d :: v)

/-- `EditsTo n a b`: `a` can be transformed into `b` by a chain of exactly
`n` single-character edit operations. -/
inductive EditsTo : Nat → List Char → List Char → Prop
  | refl (a : List Char) : EditsTo 0 a a
  | step {n : Nat} {a b c : List Char} :
      EditStep a b → EditsTo n b c → EditsTo (n + 1) a c

/-- The textbook edit-distance recurrence, used as a proof intermediary
between the Wagner-Fischer row DP and the edit-script characterization. -/
def editDist : List Char → List Char → Nat
  | [], b => b.length
  | a, [] => a.length
  | ca :: ta, cb :: tb =>
    min (editDist ta (cb :: tb) + 1)
      (min (editDist (ca :: ta) tb + 1)
        (editDist ta tb + if ca = cb then 0 else 1))
termination_by a b => a.length + b.length

theorem editDist_nil_left (b : List Char) : editDist [] b = b.length := by
  simp [editDist]

theorem editDist_nil_right (a : List Char) : editDist a [] = a.length := by
  cases a <;> simp [editDist]

theorem editDist_cons_cons (ca cb : Char) (ta tb : List Char) :
    editDist (ca :: ta) (cb :: tb) =
      min (editDist ta (cb :: tb) + 1)
        (min (editDist (ca :: ta) tb + 1)
          (editDist ta tb + if ca = cb then 0 else 1)) := by
  simp [editDist]

/-! ### Closure properties of edit steps and edit chains -/

theorem EditStep.cons {a b : List Char} (c : Char) (h : EditStep a b) :
    EditStep (c :: a) (c :: b) := by
  cases h with
  | insert u v d => exact EditStep.insert (c :: u) v d
  | delete u v d => exact EditStep.delete (c :: u) v d
  | subst u v d e => exact EditStep.subst (c :: u) v d e

theorem EditStep.symm {a b : List Char} (h : EditStep a b) : EditStep b a := by
  cases h with
  | insert u v c => exact EditStep.delete u v c
  | delete u v c => exact EditStep.insert u v c
  | subst u v c d => exact EditStep.subst u v d c

theorem EditStep.rev {a b : List Char} (h : EditStep a b) :
    EditStep a.reverse b.reverse := by
  cases h with
  | insert u v c =>
    simpa [List.reverse_append] using EditStep.insert v.reverse u.reverse c
  | delete u v c =>
    simpa [List.reverse_append] using EditStep.delete v.reverse u.reverse c
  | subst u v c d =>
    simpa [List.reverse_append] using EditStep.subst v.reverse u.reverse c d

theorem EditsTo.trans : ∀ {m n : Nat} {a b c : List Char},
    EditsTo m a b → EditsTo n b c → EditsTo (m + n) a c
  | _, _, _, _, _, .refl _, h2 => by simpa using h2
  | _, _, _, _, _, .step s h1, h2 => by
    have h := EditsTo.step s (EditsTo.trans h1 h2)
    simpa [Nat.add_right_comm] using h

theorem EditsTo.snoc : ∀ {n : Nat} {a b c : List Char},
    EditsTo n a b → EditStep b c → EditsTo (n + 1) a c
  | _, _, _, _, .refl _, s => .step s (.refl _)
  | _, _, _, _, .step s1 h, s => .step s1 (EditsTo.snoc h s)

theorem EditsTo.consPair : ∀ {n : Nat} {a b : List Char} (c : Char),
    EditsTo n a b → EditsTo n (c :: a) (c :: b)
  | _, _, _, _, .refl _ => .refl _
  | _, _, _, c, .step s h => .step (s.cons c) (EditsTo.consPair c h)

theorem EditsTo.flip : ∀ {n : Nat} {a b : List Char}, EditsTo n a b → EditsTo n b a
  | _, _, _, .refl _ => .refl _
  | _, _, _, .step s h => (EditsTo.flip h).snoc s.symm

theorem EditsTo.reversePair : ∀ {n : Nat} {a b : List Char},
    EditsTo n a b → EditsTo n a.reverse b.reverse
  | _, _, _, .refl _ => .refl _
  | _, _, _, .step s h => .step s.rev (EditsTo.reversePair h)

/-- A chain of `b.length` insertions builds `b` from the empty sequence. -/
theorem editsTo_nil (b : List Char) : EditsTo b.length [] b := by
  induction b with
  | nil => exact .refl _
  | cons c b ih => exact .step (EditStep.insert [] [] c) (ih.consPair c)

/-- Achievability: a chain of exactly `editDist a b` edit operations
transforms `a` into `b`. -/
theorem editsTo_editDist : ∀ (a b : List Char), EditsTo (editDist a b) a b
  | [], b => by rw [editDist_nil_left]; exact editsTo_nil b
  | ca :: ta, [] => by rw [editDist_nil_right]; exact (editsTo_nil (ca :: ta)).flip
  | ca :: ta, cb :: tb => by
    rw [editDist_cons_cons]
    rcases min_cases (editDist ta (cb :: tb) + 1)
        (min (editDist (ca :: ta) tb + 1)
          (editDist ta tb + if ca = cb then 0 else 1)) with h | h
    · rw [h.1]
      exact .step (EditStep.delete [] ta ca) (editsTo_editDist ta (cb :: tb))
    · rw [h.1]
      rcases min_cases (editDist (ca :: ta) tb + 1)
          (editDist ta tb + if ca = cb then 0 else 1) with h2 | h2
      · rw [h2.1]
        exact (editsTo_editDist (ca :: ta) tb).snoc (EditStep.insert [] tb cb)
      · rw [h2.1]
        by_cases hc : ca = cb
        · subst hc
          simpa using (editsTo_editDist ta tb).consPair ca
        · rw [if_neg hc]
          exact .step (EditStep.subst [] ta ca cb) ((editsTo_editDist ta tb).consPair cb)
termination_by a b => a.length + b.length

/-! ### Minimality: no chain is shorter than `editDist`

The key step is that a single edit operation changes the distance to any
third sequence by at most one.  This is proved first for an operation at
the head of the sequence, then lifted to an arbitrary position through a
common prefix `u`. -/

/-- Deleting the head character raises the distance by at most one. -/
theorem editDist_del_head (c : Char) (a w : List Char) :
    editDist (c :: a) w ≤ editDist a w + 1 := by
  cases w with
  | nil => rw [editDist_nil_right, editDist_nil_right]; simp
  | cons e w' => rw [editDist_cons_cons]; exact min_le_left _ _

/-- Dropping the head character of the second argument raises the distance
by at most one. -/
theorem editDist_ins_right (a : List Char) (e : Char) (w : List Char) :
    editDist a (e :: w) ≤ editDist a w + 1 := by
  cases a with
  | nil => rw [editDist_nil_left, editDist_nil_left]; simp
  | cons c v =>
    rw [editDist_cons_cons]
    exact le_trans (min_le_right _ _) (min_le_left _ _)

/-- Inserting a character at the head raises the distance by at most one. -/
theorem editDist_ins_head (c : Char) (a : List Char) :
    ∀ (w : List Char), editDist a w ≤ editDist (c :: a) w + 1 := by
  intro w
  induction w with
  | nil =>
    rw [editDist_nil_right, editDist_nil_right]
    simp only [List.length_cons]
    omega
  | cons e w' ih =>
    rw [editDist_cons_cons]
    have h1 := editDist_ins_right a e w'
    have h2 : (if c = e then 0 else 1) ≤ 1 := by split <;> simp
    omega

/-- Replacing the head character raises the distance by at most one. -/
theorem editDist_subst_head (c d : Char) (a : List Char) :
    ∀ (w : List Char), editDist (c :: a) w ≤ editDist (d :: a) w + 1 := by
  intro w
  induction w with
  | nil => rw [editDist_nil_right, editDist_nil_right]; simp
  | cons e w' ih =>
    rw [editDist_cons_cons, editDist_cons_cons]
    have h2 : (if c = e then 0 else 1) ≤ 1 := by split <;> simp
    have h3 : (if d = e then 0 else 1) ≤ 1 := by split <;> simp
    omega

/-- A head-position bound transfers through an arbitrary common prefix
`u`: if replacing `x` by `y` costs at most one extra against every third
sequence, then so does replacing `u ++ x` by `u ++ y`. -/
theorem editDist_ctx : ∀ (u w x y : List Char),
    (∀ v, editDist x v ≤ editDist y v + 1) →
    editDist (u ++ x) w ≤ editDist (u ++ y) w + 1
  | [], w, x, y, h => by simpa using h w
  | c :: u', [], x, y, h => by
    have hx := h []
    rw [editDist_nil_right, editDist_nil_right] at hx
    rw [editDist_nil_right, editDist_nil_right]
    simp only [List.length_append, List.length_cons]
    omega
  | c :: u', e :: w', x, y, h => by
    have h1 := editDist_ctx u' (e :: w') x y h
    have h2 := editDist_ctx (c :: u') w' x y h
    have h3 := editDist_ctx u' w' x y h
    simp only [List.cons_append] at h2 ⊢
    rw [editDist_cons_cons, editDist_cons_cons]
    omega
termination_by u w => u.length + w.length

/-- One edit operation changes the distance to any third sequence by at
most one. -/
theorem editDist_le_step {a b : List Char} (s : EditStep a b) (w : List Char) :
    editDist a w ≤ editDist b w + 1 := by
  cases s with
  | insert u v c => exact editDist_ctx u w v (c :: v) (editDist_ins_head c v)
  | delete u v c => exact editDist_ctx u w (c :: v) v (fun v' => editDist_del_head c v v')
  | subst u v c d => exact editDist_ctx u w (c :: v) (d :: v) (editDist_subst_head c d v)

theorem editDist_self : ∀ (a : List Char), editDist a a = 0
  | [] => editDist_nil_left []
  | c :: ta => by
    have ih := editDist_self ta
    rw [editDist_cons_cons]
    simp [ih]

/-- Minimality: every chain of edit operations from `a` to `b` has length
at least `editDist a b`. -/
theorem editDist_le_editsTo : ∀ {n : Nat} {a b : List Char},
    EditsTo n a b → editDist a b ≤ n
  | _, _, _, .refl a => by rw [editDist_self]
  | _, _, c, .step s h => by
    have h1 := editDist_le_step s c
    have h2 := editDist_le_editsTo h
    omega

/-! ### Metric properties of `editDist`, from the characterization -/

theorem editDist_comm (a b : List Char) : editDist a b = editDist b a :=
  le_antisymm (editDist_le_editsTo (editsTo_editDist b a).flip)
    (editDist_le_editsTo (editsTo_editDist a b).flip)

theorem editDist_triangle (a b c : List Char) :
    editDist a b ≤ editDist a c + editDist c b :=
  editDist_le_editsTo ((editsTo_editDist a c).trans (editsTo_editDist c b))

theorem editDist_reverse (a b : List Char) :
    editDist a.reverse b.reverse = editDist a b := by
  refine le_antisymm (editDist_le_editsTo (editsTo_editDist a b).reversePair) ?_
  have h := (editsTo_editDist a.reverse b.reverse).reversePair
  rw [List.reverse_reverse, List.reverse_reverse] at h
  exact editDist_le_editsTo h

theorem editDist_le_max : ∀ (a b : List Char),
    editDist a b ≤ max a.length b.length
  | [], b => by rw [editDist_nil_left]; exact le_max_right _ _
  | ca :: ta, [] => by rw [editDist_nil_right]; exact le_max_left _ _
  | ca :: ta, cb :: tb => by
    have ih := editDist_le_max ta tb
    rw [editDist_cons_cons]
    have hc : (if ca = cb then 0 else 1) ≤ 1 := by split <;> simp
    simp only [List.length_cons]
    omega

/-- The edit-distance recurrence read at the last characters instead of the
first ones, obtained through reversal invariance.  This is the orientation
in which the Wagner-Fischer row DP consumes its inputs. -/
theorem editDist_snoc_snoc (ca cb : Char) (p q : List Char) :
    editDist (p ++ [ca]) (q ++ [cb]) =
      min (editDist p (q ++ [cb]) + 1)
        (min (editDist (p ++ [ca]) q + 1)
          (editDist p q + if ca = cb then 0 else 1)) := by
  have h0 : editDist (p ++ [ca]) (q ++ [cb]) =
      editDist (ca :: p.reverse) (cb :: q.reverse) := by
    rw [← editDist_reverse (ca :: p.reverse) (cb :: q.reverse)]
    simp
  have h1 : editDist p (q ++ [cb]) = editDist p.reverse (cb :: q.reverse) := by
    rw [← editDist_reverse p.reverse (cb :: q.reverse)]
    simp
  have h2 : editDist (p ++ [ca]) q = editDist (ca :: p.reverse) q.reverse := by
    rw [← editDist_reverse (ca :: p.reverse) q.reverse]
    simp
  have h3 : editDist p q = editDist p.reverse q.reverse := by
    rw [editDist_reverse]
  rw [h0, h1, h2, h3, editDist_cons_cons]

/-! ### Correctness of the Wagner-Fischer row

`rowFor p q bsuf` is the intended contents of the DP row after the
characters of `p` have been consumed: its `j`-th entry is the distance
from `p` to `q ++ (bsuf.take j)`, for `j = 0, ..., bsuf.length`.  The
actual row kept by the code is `rowFor p [] b`. -/
def rowFor (p : List Char) : List Char → List Char → List Nat
  | q, [] => [editDist p q]
  | q, cb :: bs => editDist p q :: rowFor p (q ++ [cb]) bs

theorem rowFor_head_cons (p q bsuf : List Char) :
    rowFor p q bsuf = editDist p q :: (rowFor p q bsuf).tail := by
  cases bsuf <;> rfl

/-- One pass of the inner loop turns the row for `p` into the row for
`p ++ [ca]` (minus its first cell, which the code writes separately). -/
theorem levRow_rowFor (ca : Char) (p : List Char) :
    ∀ (bsuf q : List Char),
      levRow ca bsuf (rowFor p q bsuf) (editDist (p ++ [ca]) q) =
        (rowFor (p ++ [ca]) q bsuf).tail
  | [], _ => rfl
  | cb :: bs, q => by
    have htail : rowFor p (q ++ [cb]) bs =
        editDist p (q ++ [cb]) :: (rowFor p (q ++ [cb]) bs).tail :=
      rowFor_head_cons p (q ++ [cb]) bs
    conv_lhs =>
      rw [show rowFor p q (cb :: bs) = editDist p q :: rowFor p (q ++ [cb]) bs
            from rfl,
        htail]
    simp only [levRow]
    rw [← editDist_snoc_snoc, ← htail, levRow_rowFor ca p bs (q ++ [cb])]
    rw [show (rowFor (p ++ [ca]) q (cb :: bs)).tail =
          rowFor (p ++ [ca]) (q ++ [cb]) bs from rfl]
    conv_rhs => rw [rowFor_head_cons (p ++ [ca]) (q ++ [cb]) bs]

/-- The initial row `0, 1, ..., len_b` is the row for the empty prefix. -/
theorem rowFor_nil : ∀ (bsuf q : List Char),
    rowFor [] q bsuf = (List.range (bsuf.length + 1)).map (fun j => q.length + j)
  | [], q => by
    simp [rowFor, editDist_nil_left, List.range_succ]
  | cb :: bs, q => by
    have ih := rowFor_nil bs (q ++ [cb])
    rw [show rowFor [] q (cb :: bs) = editDist [] q :: rowFor [] (q ++ [cb]) bs
          from rfl,
      ih, editDist_nil_left]
    rw [show (cb :: bs).length + 1 = (bs.length + 1) + 1 from rfl]
    conv_rhs => rw [List.range_succ_eq_map, List.map_cons, List.map_map]
    simp only [List.cons.injEq]
    constructor
    · simp
    · refine List.map_congr_left fun j hj => ?_
      simp [Function.comp]
      omega

/-- The outer loop carries the row invariant across the characters of
`a`. -/
theorem levRows_rowFor (b : List Char) :
    ∀ (asuf p : List Char),
      levRows b asuf p.length (rowFor p [] b) = rowFor (p ++ asuf) [] b
  | [], p => by simp [levRows]
  | ca :: arest, p => by
    have ih := levRows_rowFor b arest (p ++ [ca])
    have hlen : editDist (p ++ [ca]) [] = p.length + 1 := by
      rw [editDist_nil_right]
      simp
    have hrow := levRow_rowFor ca p b []
    rw [hlen] at hrow
    show levRows b arest (p.length + 1)
        ((p.length + 1) :: levRow ca b (rowFor p [] b) (p.length + 1)) =
      rowFor (p ++ ca :: arest) [] b
    rw [hrow]
    have hcons : (p.length + 1) :: (rowFor (p ++ [ca]) [] b).tail =
        rowFor (p ++ [ca]) [] b := by
      conv_rhs => rw [rowFor_head_cons (p ++ [ca]) [] b, hlen]
    rw [hcons]
    simpa using ih

/-- The last cell of the row for `p` holds `editDist p (q ++ bsuf)`. -/
theorem rowFor_getD (p : List Char) : ∀ (bsuf q : List Char),
    (rowFor p q bsuf).getD bsuf.length 0 = editDist p (q ++ bsuf)
  | [], q => by simp [rowFor]
  | cb :: bs, q => by
    have ih := rowFor_getD p bs (q ++ [cb])
    rw [show rowFor p q (cb :: bs) = editDist p q :: rowFor p (q ++ [cb]) bs
          from rfl]
    simp only [List.length_cons, List.getD_cons_succ]
    rw [ih]
    simp

/-- The DP branch of `levenshtein` computes `editDist` — with no
assumption on the lengths of `a` and `b`. -/
theorem levRows_editDist (a b : List Char) :
    (levRows b a 0 (List.range (b.length + 1))).getD b.length 0 = editDist a b := by
  have h0 : List.range (b.length + 1) = rowFor [] [] b := by
    rw [rowFor_nil b []]
    simp
  rw [h0]
  have h1 := levRows_rowFor b a []
  simp only [List.length_nil, List.nil_append] at h1
  rw [h1, rowFor_getD a b []]
  simp

/-- The function computed by the code, with all four branches resolved:
`levenshtein` agrees with the textbook recurrence. -/
theorem levenshtein_eq_editDist (a b : List Char) :
    levenshtein a b = editDist a b := by
  rw [levenshtein.eq_def]
  split
  · next ha =>
    rw [List.length_eq_zero] at ha
    subst ha
    rw [editDist_nil_left]
  · next ha =>
    split
    · next hb =>
      rw [List.length_eq_zero] at hb
      subst hb
      rw [editDist_nil_right]
    · next hb =>
      split
      · next hab =>
        rw [levenshtein.eq_def]
        have h1 : ¬b.length = 0 := by omega
        have h3 : ¬b.length < a.length := by omega
        rw [if_neg h1, if_neg ha, dif_neg h3]
        rw [levRows_editDist b a, editDist_comm]
      · next hab =>
        exact levRows_editDist a b

/-! ### Hamming distance lemmas -/

theorem hamming_nil_left (y : List Char) : hamming [] y = 0 := by
  simp [hamming]

theorem hamming_nil_right (x : List Char) : hamming x [] = 0 := by
  simp [hamming]

theorem hamming_cons_cons (a b : Char) (x y : List Char) :
    hamming (a :: x) (b :: y) = (if a = b then 0 else 1) + hamming x y := by
  by_cases h : a = b <;> simp [hamming, List.filter_cons, h, Nat.add_comm]

theorem hamming_self (x : List Char) : hamming x x = 0 := by
  induction x with
  | nil => simp [hamming]
  | cons c x ih => rw [hamming_cons_cons, ih, if_pos rfl]

/-- `hamming` counts exactly the positions `i < min (length x) (length y)`
where the two character sequences differ. -/
theorem hamming_countP : ∀ (x y : List Char),
    hamming x y = (List.range (min x.length y.length)).countP
      (fun i => decide (x[i]? ≠ y[i]?))
  | [], y => by simp [hamming]
  | x :: xs, [] => by simp [hamming]
  | a :: xs, b :: ys => by
    have ih := hamming_countP xs ys
    rw [hamming_cons_cons, ih]
    rw [show min (a :: xs).length (b :: ys).length = min xs.length ys.length + 1 by
      simp only [List.length_cons]
      omega]
    conv_rhs => rw [List.range_succ_eq_map, List.countP_cons, List.countP_map]
    have hf : ((fun i => decide ((a :: xs)[i]? ≠ (b :: ys)[i]?)) ∘ Nat.succ) =
        (fun i => decide (xs[i]? ≠ ys[i]?)) := by
      funext i
      simp [Function.comp]
    rw [hf]
    by_cases h : a = b <;> simp [h, Nat.add_comm]

/-- Trailing characters of the longer string never change `hamming`: the
result equals the result on the truncations to the common length. -/
theorem hamming_take : ∀ (x y : List Char),
    hamming x y =
      hamming (x.take (min x.length y.length)) (y.take (min x.length y.length))
  | [], y => by simp [hamming]
  | x :: xs, [] => by simp [hamming]
  | a :: xs, b :: ys => by
    have ih := hamming_take xs ys
    rw [hamming_cons_cons]
    rw [show min (a :: xs).length (b :: ys).length = min xs.length ys.length + 1 by
      simp only [List.length_cons]
      omega]
    rw [List.take_succ_cons, List.take_succ_cons, hamming_cons_cons, ← ih]

/-! ### The claims -/

/-- C1: for every pair of strings `a` and `b`, `levenshtein a b` equals the
minimum number of single-character insertions, deletions, or substitutions
(each of cost 1) needed to transform the character sequence of `a` into
the character sequence of `b`: some chain of exactly `levenshtein a b`
edit operations works, and no shorter chain does. -/
theorem levenshtein_min_edit_count (a b : List Char) :
    EditsTo (levenshtein a b) a b ∧
      ∀ n, EditsTo n a b → levenshtein a b ≤ n := by
  rw [levenshtein_eq_editDist]
  exact ⟨editsTo_editDist a b, fun _ h => editDist_le_editsTo h⟩

theorem levenshtein_min_edit_count_witness :
    EditsTo (levenshtein ['a'] ['b']) ['a'] ['b'] ∧
      levenshtein ['a'] ['b'] ≤ 1 :=
  ⟨(levenshtein_min_edit_count ['a'] ['b']).1,
    (levenshtein_min_edit_count ['a'] ['b']).2 1
      (EditsTo.step (EditStep.subst [] [] 'a' 'b') (EditsTo.refl ['b']))⟩

/-- C2: `hamming x y` equals the number of index positions
`i < min (length x) (length y)` at which the `i`-th characters of `x` and
`y` differ, and trailing characters of the longer string beyond that
length never change the result (truncation, not an error). -/
theorem hamming_mismatch_count (x y : List Char) :
    hamming x y = (List.range (min x.length y.length)).countP
        (fun i => decide (x[i]? ≠ y[i]?)) ∧
      hamming x y =
        hamming (x.take (min x.length y.length))
          (y.take (min x.length y.length)) :=
  ⟨hamming_countP x y, hamming_take x y⟩

/-- C3: if the true distance (for `levenshtein`) or mismatch count (for
`hamming`) exceeds the maximum value of the `w`-bit output width, the call
aborts fatally (`none`) rather than returning a truncated or wrapped
value, and this numeric overflow is the only error condition: otherwise
the exact value is returned. -/
theorem overflow_is_fatal (w : Nat) (a b x y : List Char) :
    (levenshteinChecked w a b = none ↔ 2 ^ w ≤ levenshtein a b) ∧
      (levenshteinChecked w a b = none ∨
        levenshteinChecked w a b = some (levenshtein a b)) ∧
      (hammingChecked w x y = none ↔ 2 ^ w ≤ hamming x y) ∧
      (hammingChecked w x y = none ∨
        hammingChecked w x y = some (hamming x y)) := by
  unfold levenshteinChecked hammingChecked uintFromCount
  refine ⟨?_, ?_, ?_, ?_⟩ <;> split <;> simp <;> omega

/-- C4: `levenshtein` is symmetric in its two arguments. -/
theorem levenshtein_symmetric (a b : List Char) :
    levenshtein a b = levenshtein b a := by
  simp only [levenshtein_eq_editDist]
  exact editDist_comm a b

/-- C5: `levenshtein` satisfies the triangle inequality of a metric. -/
theorem levenshtein_triangle (a b c : List Char) :
    levenshtein a b ≤ levenshtein a c + levenshtein c b := by
  simp only [levenshtein_eq_editDist]
  exact editDist_triangle a b c

/-- C6: the distance from the empty string is the other string's character
length, in both argument orders; hence the distance between two empty
strings is 0. -/
theorem levenshtein_empty (a b : List Char) :
    levenshtein [] b = b.length ∧ levenshtein a [] = a.length ∧
      levenshtein ([] : List Char) [] = 0 := by
  simp only [levenshtein_eq_editDist]
  exact ⟨editDist_nil_left b, editDist_nil_right a, editDist_nil_left []⟩

/-- C7: both distances vanish on equal arguments. -/
theorem distance_self (a : List Char) :
    levenshtein a a = 0 ∧ hamming a a = 0 := by
  rw [levenshtein_eq_editDist]
  exact ⟨editDist_self a, hamming_self a⟩

set_option maxRecDepth 20000 in
/-- C8: the four literal scenarios of the spec. -/
theorem literal_scenarios :
    levenshtein "NAJIBEATSPEPPERS".data "NAJIBPEPPERSEATS".data = 8 ∧
      levenshtein "TOMEATSWHATFOODEATS".data "FOODEATSWHATTOMEATS".data = 6 ∧
      hamming "NAJIBEATSPEPPERS".data "NAJIBPEPPERSEATS".data = 10 ∧
      hamming "TOMEATSWHATFOODEATS".data "FOODEATSWHATTOMEATS".data = 13 := by
  refine ⟨?_, ?_, ?_, ?_⟩
  · rw [levenshtein.eq_def]
    decide
  · rw [levenshtein.eq_def]
    decide
  · decide
  · decide

/-- C9: `levenshtein` terminates on every pair of inputs, and the
self-recursive role-swap call is taken at most once per top-level call:
running the same branch structure with an explicit recursion budget of 2
never exhausts the budget and agrees with `levenshtein`. -/
theorem swap_taken_at_most_once (a b : List Char) :
    levenshteinFuel 2 a b = some (levenshtein a b) := by
  show (if a.length = 0 then some b.length
      else if b.length = 0 then some a.length
      else if a.length < b.length then levenshteinFuel 1 b a
      else some ((levRows b a 0 (List.range (b.length + 1))).getD b.length 0)) =
    some (levenshtein a b)
  rw [levenshtein_eq_editDist]
  by_cases ha : a.length = 0
  · rw [if_pos ha]
    rw [List.length_eq_zero] at ha
    subst ha
    rw [editDist_nil_left]
  · rw [if_neg ha]
    by_cases hb : b.length = 0
    · rw [if_pos hb]
      rw [List.length_eq_zero] at hb
      subst hb
      rw [editDist_nil_right]
    · rw [if_neg hb]
      by_cases hab : a.length < b.length
      · rw [if_pos hab]
        show (if b.length = 0 then some a.length
            else if a.length = 0 then some b.length
            else if b.length < a.length then levenshteinFuel 0 a b
            else some ((levRows a b 0
              (List.range (a.length + 1))).getD a.length 0)) =
          some (editDist a b)
        have h3 : ¬b.length < a.length := by omega
        rw [if_neg hb, if_neg ha, if_neg h3, levRows_editDist b a,
          editDist_comm a b]
      · rw [if_neg hab, levRows_editDist a b]

/-- C10: the distance computed by `levenshtein`, before conversion to the
output width, is at most the character length of the longer input;
consequently the overflow abort is unreachable whenever the output width
can represent the longer input's length. -/
theorem levenshtein_le_max_len (w : Nat) (a b : List Char) :
    levenshtein a b ≤ max a.length b.length ∧
      (max a.length b.length < 2 ^ w →
        levenshteinChecked w a b = some (levenshtein a b)) := by
  have h := editDist_le_max a b
  rw [← levenshtein_eq_editDist] at h
  refine ⟨h, fun hw => ?_⟩
  unfold levenshteinChecked uintFromCount
  rw [if_pos (by omega)]

theorem levenshtein_le_max_len_witness :
    levenshtein "ab".data "b".data ≤ max "ab".data.length "b".data.length ∧
      levenshteinChecked 8 "ab".data "b".data =
        some (levenshtein "ab".data "b".data) :=
  ⟨(levenshtein_le_max_len 8 "ab".data "b".data).1,
    (levenshtein_le_max_len 8 "ab".data "b".data).2 (by decide)⟩

end Distances
